import Mathlib

/-!
Shallow embedding of bambi backends.py: the two model-compilation back ends
(PyMC3BackEnd, the graph back end; StanBackEnd, the program-text back end),
their prior-expansion recursion, the Stan distribution mapping table, trace
reconstruction, and the transformed-variable bookkeeping.

Numeric Python/numpy scalars are modelled exactly as rationals (Int for
Python ints, Rat for floats); machine floating point never matters for the
properties proved here because all concrete inputs are small integers.
External libraries (pymc3, theano, pystan, numpy) are modelled by their
observable surface: a finite distribution vocabulary, symbolic graph
expressions, and explicit array values.
-/

namespace Bambi

/-- A design matrix (2-D numpy array), rows of rationals. -/
abbrev Mat := List (List Rat)

/-- Column count of a design matrix: numpy shape[1]. -/
def matCols (m : Mat) : Nat := (m.headD []).length

/-- A numpy array value as it appears in prior arguments and data payloads. -/
inductive NpArr where
  | vec (xs : List Rat)
  | mat (rows : List (List Rat))
deriving DecidableEq, Repr

/-- Length of the array along axis 0 (Python len). -/
def NpArr.len : NpArr → Nat
  | .vec xs => xs.length
  | .mat rows => rows.length

/-- Models numpy squeeze for the 1-D and 2-D arrays this code passes around:
an n-by-1 (or 1-by-n) matrix collapses to a vector, anything else is kept. -/
def npSqueeze : NpArr → NpArr
  | .vec xs => .vec xs
  | .mat rows =>
    if rows.all (fun r => r.length = 1) then .vec (rows.map (fun r => r.headD 0))
    else if rows.length = 1 then .vec (rows.headD [])
    else .mat rows

/-- Symbolic theano/PyMC3 graph expression: the linear predictor accumulator
mu and link-transformed values are such expressions.  dot carries the data
matrix and the label of the coefficient RV; col models the column broadcast
written as a trailing [:, None] in the source. -/
inductive GExpr where
  | const (x : Rat)
  | add (a b : GExpr)
  | dot (data : Mat) (coefLabel : String)
  | col (e : GExpr)
  | linkOp (opName : String) (e : GExpr)
deriving DecidableEq, Repr

mutual
/-- bambi Prior: a distribution name plus named arguments, any of which may
itself be a nested Prior (hyperprior).  Mirrors bambi.priors.Prior as used by
backends.py: fields name and args. -/
inductive Prior where
  | mk (pname : String) (args : Args)
/-- The ordered argument mapping of a Prior (a Python dict, insertion order). -/
inductive Args where
  | nil
  | cons (key : String) (v : PriorVal) (rest : Args)
/-- A value in a Prior argument mapping: a Python int, a float, a numpy
array, a graph expression (injected by the graph back end for the family
parent argument), or a nested Prior. -/
inductive PriorVal where
  | int (i : Int)
  | flt (q : Rat)
  | arr (a : NpArr)
  | gexpr (g : GExpr)
  | pr (p : Prior)
end
deriving instance DecidableEq for Prior, Args, PriorVal
deriving instance Repr for Prior, Args, PriorVal

/-- Distribution name of a Prior. -/
def Prior.name : Prior → String
  | .mk n _ => n

/-- Argument mapping of a Prior. -/
def Prior.pargs : Prior → Args
  | .mk _ a => a

/-- Python dict assignment d[key] = v: replace in place if the key exists
(keeping its position), otherwise append at the end. -/
def Args.setK : Args → String → PriorVal → Args
  | .nil, key, v => .cons key v .nil
  | .cons k w r, key, v => if k = key then .cons k v r else .cons k w (r.setK key v)

/-- View of an argument mapping as an association list. -/
def Args.toList : Args → List (String × PriorVal)
  | .nil => []
  | .cons k v r => (k, v) :: r.toList

/-- Number of entries of an argument mapping. -/
def Args.len : Args → Nat
  | .nil => 0
  | .cons _ _ r => 1 + r.len

/-- A materialized argument value after prior expansion in the graph back
end: leaf values pass through, a nested Prior is replaced by a reference to
the RV node it expanded into. -/
inductive MVal where
  | int (i : Int)
  | flt (q : Rat)
  | arr (a : NpArr)
  | gexpr (g : GExpr)
  | ref (label : String)
deriving DecidableEq, Repr

/-- A random-variable node registered in the PyMC3 model graph by calling a
distribution class: its name (label), distribution, and keyword arguments. -/
structure PNode where
  label : String
  dist : String
  args : List (String × MVal)
deriving DecidableEq, Repr

/-- Models the distribution-class surface of the external pymc3 module, as
probed by hasattr(pm, dist) in PyMC3BackEnd build dist. -/
def pmDistNames : List String :=
  ["Normal", "Cauchy", "HalfNormal", "HalfCauchy", "Uniform", "Flat",
   "Bernoulli", "Binomial", "Poisson", "Beta", "Gamma", "Exponential",
   "StudentT", "Laplace"]

/-- The exact error text raised for an unknown distribution in the graph
back end. -/
def pmUnknownMsg (dist : String) : String :=
  "The Distribution class \x27" ++ dist ++ "\x27 was not found in PyMC3."

mutual
/-- PyMC3BackEnd build dist: check the name against the pymc3 vocabulary,
recursively expand every Prior-valued keyword argument under the derived
label (parent label, underscore, argument key), then register one RV node
carrying the materialized arguments.  The node list is the back end model
state threaded through, so nodes created before a failure persist, exactly
as Python side effects do. -/
def pmBuildDist (ns : List PNode) (label : String) (p : Prior) :
    List PNode × Except String MVal :=
  match p with
  | .mk dname args =>
    if dname ∈ pmDistNames then
      match pmExpandArgs ns label args with
      | (ns1, .ok margs) => (ns1 ++ [⟨label, dname, margs⟩], .ok (.ref label))
      | (ns1, .error e) => (ns1, .error e)
    else (ns, .error (pmUnknownMsg dname))
/-- Expand each argument in mapping order (the dict comprehension in the
source). -/
def pmExpandArgs (ns : List PNode) (label : String) (as : Args) :
    List PNode × Except String (List (String × MVal)) :=
  match as with
  | .nil => (ns, .ok [])
  | .cons k v rest =>
    match pmExpandArg ns label k v with
    | (ns1, .ok m) =>
      match pmExpandArgs ns1 label rest with
      | (ns2, .ok ms) => (ns2, .ok ((k, m) :: ms))
      | (ns2, .error e) => (ns2, .error e)
    | (ns1, .error e) => (ns1, .error e)
/-- Expand one argument value: a nested Prior recurses with the derived
label, every other value passes through (the expand args helper in the
source). -/
def pmExpandArg (ns : List PNode) (label : String) (k : String) (v : PriorVal) :
    List PNode × Except String MVal :=
  match v with
  | .pr p => pmBuildDist ns (label ++ "_" ++ k) p
  | .int i => (ns, .ok (.int i))
  | .flt q => (ns, .ok (.flt q))
  | .arr a => (ns, .ok (.arr a))
  | .gexpr g => (ns, .ok (.gexpr g))
end

/-! ## The abstract model specification (input data model) -/

/-- Term data: a single design matrix (fixed or plain random effect) or a
mapping from group level to design sub-matrix (random effect with levels). -/
inductive TermData where
  | plain (m : Mat)
  | grouped (levels : List (String × Mat))
deriving DecidableEq, Repr

/-- A model term: name, data, random flag, prior. -/
structure Term where
  name : String
  data : TermData
  random : Bool
  prior : Prior
deriving DecidableEq, Repr

/-- The response: name and observed data matrix. -/
structure Response where
  name : String
  data : Mat
deriving DecidableEq, Repr

/-- The family link: a name resolved against the fixed registry, or a
caller-supplied callable (modelled by the name of the operation it applies). -/
inductive Link where
  | named (s : String)
  | custom (opName : String)
deriving DecidableEq, Repr

/-- The outcome family: prior, link, and the name of the parent argument
that receives the link-transformed linear predictor. -/
structure Family where
  prior : Prior
  link : Link
  parent : String
deriving DecidableEq, Repr

/-- The abstract model specification handed to a back end: ordered terms,
response, family. -/
structure ModelSpec where
  terms : List Term
  y : Response
  family : Family
deriving DecidableEq, Repr

/-! ## PyMC3 (graph) back end -/

/-- A trace object as the graph back end sees it after sampling: the list of
variable names it carries. -/
structure PTrace where
  varnames : List String
deriving DecidableEq, Repr

/-- PyMC3BackEnd instance state: the RV nodes of the current model graph,
the linear predictor accumulator, the last trace, the retained spec, and the
last advi parameters. -/
structure PSt where
  nodes : List PNode
  mu : Option GExpr
  trace : Option PTrace
  specRef : Option ModelSpec
  adviParams : Option (List (String × Rat))
deriving DecidableEq, Repr

/-- PyMC3BackEnd reset: fresh model graph, cleared accumulator. -/
def pmReset (st : PSt) : PSt := { st with nodes := [], mu := none }

/-- A freshly constructed PyMC3BackEnd instance. -/
def pmInit : PSt := ⟨[], none, none, none, none⟩

/-- Apply the family link: the links registry maps identity to the identity
function and logit, inverse, log to the corresponding theano operations; a
name outside the registry raises a KeyError; a callable is applied directly. -/
def pmLinkApply (l : Link) (e : GExpr) : Except String GExpr :=
  match l with
  | .custom op => .ok (.linkOp op e)
  | .named s =>
    if s = "identity" then .ok e
    else if s = "logit" then .ok (.linkOp "sigmoid" e)
    else if s = "inverse" then .ok (.linkOp "inv" e)
    else if s = "log" then .ok (.linkOp "log" e)
    else .error ("KeyError: " ++ s)

/-- The kwargs actually passed to build dist for a term: shape=n_cols first,
then the prior arguments. -/
def priorWithShape (n : Nat) : Prior → Prior
  | .mk nm as => .mk nm (.cons "shape" (.int (n : Int)) as)

/-- The per-level loop of the random-effects branch of PyMC3BackEnd build:
for each level build an RV labelled u underscore term underscore level and
add the column-broadcast product of the level data and the RV to mu. -/
def pmBuildLevels (ns : List PNode) (mu : GExpr) (label : String) (p : Prior)
    (levels : List (String × Mat)) : List PNode × GExpr × Except String Unit :=
  match levels with
  | [] => (ns, mu, .ok ())
  | (level, ldata) :: rest =>
    let nCols := matCols ldata
    let muLabel := "u_" ++ label ++ "_" ++ level
    match pmBuildDist ns muLabel (priorWithShape nCols p) with
    | (ns1, .ok _) =>
      pmBuildLevels ns1 (.add mu (.col (.dot ldata muLabel))) label p rest
    | (ns1, .error e) => (ns1, mu, .error e)

/-- The term loop of PyMC3BackEnd build: grouped data takes the per-level
path, otherwise one RV named with the b or u prefix is built and its
column-broadcast product with the data is added to mu. -/
def pmBuildTerms (ns : List PNode) (mu : GExpr) (ts : List Term) :
    List PNode × GExpr × Except String Unit :=
  match ts with
  | [] => (ns, mu, .ok ())
  | t :: rest =>
    match t.data with
    | .grouped levels =>
      match pmBuildLevels ns mu t.name t.prior levels with
      | (ns1, mu1, .ok _) => pmBuildTerms ns1 mu1 rest
      | (ns1, mu1, .error e) => (ns1, mu1, .error e)
    | .plain m =>
      let pre := if t.random then "u_" else "b_"
      let nCols := matCols m
      let nm := pre ++ t.name
      match pmBuildDist ns nm (priorWithShape nCols t.prior) with
      | (ns1, .ok _) => pmBuildTerms ns1 (.add mu (.col (.dot m nm))) rest
      | (ns1, .error e) => (ns1, mu, .error e)

/-- PyMC3BackEnd build: optionally reset, run the term loop starting from a
zero accumulator, then resolve the link, write the link-transformed
accumulator into the family prior argument named by family.parent and the
response data into the observed argument (an in-place mutation of the
caller's spec, returned here as the updated spec), and build the outcome RV.
On success the back end retains a reference to the (mutated) spec. -/
def pymc3Build (st : PSt) (spec : ModelSpec) (reset : Bool) :
    PSt × ModelSpec × Except String Unit :=
  let st := if reset then pmReset st else st
  match pmBuildTerms st.nodes (.const 0) spec.terms with
  | (ns, mu, .error e) => ({ st with nodes := ns, mu := some mu }, spec, .error e)
  | (ns, mu, .ok _) =>
    match pmLinkApply spec.family.link mu with
    | .error e => ({ st with nodes := ns, mu := some mu }, spec, .error e)
    | .ok lmu =>
      let fp := spec.family.prior
      let args1 := fp.pargs.setK spec.family.parent (.gexpr lmu)
      let args2 := args1.setK "observed" (.arr (.mat spec.y.data))
      let fp2 : Prior := .mk fp.name args2
      let spec2 : ModelSpec := { spec with family := { spec.family with prior := fp2 } }
      match pmBuildDist ns spec.y.name fp2 with
      | (ns2, .ok _) =>
        ({ st with nodes := ns2, mu := some mu, specRef := some spec2 }, spec2, .ok ())
      | (ns2, .error e) => ({ st with nodes := ns2, mu := some mu }, spec2, .error e)

/-! ## Transformed-variable bookkeeping and run (graph back end) -/

/-- needle occurs in hay as a prefix (helper for the substring test). -/
def listHasPre (needle hay : List Char) : Bool :=
  match needle, hay with
  | [], _ => true
  | _ :: _, [] => false
  | a :: as, b :: bs => a = b && listHasPre as bs

/-- needle occurs somewhere in hay as a contiguous run: the Python
substring test (t in x). -/
def listHasSub (needle hay : List Char) : Bool :=
  match hay with
  | [] => needle.isEmpty
  | _ :: tl => listHasPre needle hay || listHasSub needle tl

/-- Python substring containment: needle in hay. -/
def strHasSub (hay needle : String) : Bool := listHasSub needle.data hay.data

/-- Boolean list membership for strings. -/
def memB (x : String) (l : List String) : Bool := l.any (fun y => decide (x = y))

/-- PyMC3BackEnd get transformed vars, over the unobserved RVs of the graph
(name and whether the RV is a TransformedRV) and the trace variable names:
trans collects the TransformedRV names, untrans the remaining names with
those containing some trans name as a substring removed, and the result is
every trace name in neither set. -/
def pmGetTransformedVars (rvs : List (String × Bool)) (varnames : List String) :
    List String :=
  let trans := (rvs.filter (fun v => v.2)).map (fun v => v.1)
  let untrans0 := (rvs.map (fun v => v.1)).filter (fun x => !(memB x trans))
  let untrans := untrans0.filter (fun x => !(trans.any (fun t => strHasSub x t)))
  varnames.filter (fun x => !(memB x trans || memB x untrans))

/-- What the specification text asserts instead: a latent variable is
dropped as a raw duplicate exactly when its name is a prefix-extension of
some transformed name (the transformed name is a prefix of it).  Written
from the claim for comparison with the source function above. -/
def pmGetTransformedVarsPrefixSpec (rvs : List (String × Bool))
    (varnames : List String) : List String :=
  let trans := (rvs.filter (fun v => v.2)).map (fun v => v.1)
  let untrans0 := (rvs.map (fun v => v.1)).filter (fun x => !(memB x trans))
  let untrans := untrans0.filter (fun x => !(trans.any (fun t => listHasPre t.data x.data)))
  varnames.filter (fun x => !(memB x trans || memB x untrans))

/-- Models the unobserved RV registry of the pymc3 model: the nodes the back
end created, flagged as TransformedRV when pymc3 auto-transforms the
distribution (bounded-support families). -/
def pmAutoTransformed : List String :=
  ["HalfNormal", "HalfCauchy", "Uniform", "Beta", "Gamma", "Exponential"]

/-- The unobserved RVs of the compiled graph, as name and TransformedRV
flag pairs. -/
def pmUnobservedRVs (ns : List PNode) : List (String × Bool) :=
  ns.map (fun nd => (nd.label, decide (nd.dist ∈ pmAutoTransformed)))

/-- A run result: MCMC draws or ADVI parameters, each carrying the spec
reference and the suppressed (transformed) variable names. -/
inductive PyRunResult where
  | mcmc (spec : Option ModelSpec) (trace : PTrace) (transformedVars : List String)
  | advi (spec : Option ModelSpec) (params : List (String × Rat)) (transformedVars : List String)
deriving DecidableEq, Repr

/-- PyMC3BackEnd run: mcmc samples a trace (sampleF models the external
pm.sample), advi runs variational inference (adviF models pm.variational.advi
and reads the varnames of the previously stored trace, an AttributeError when
none exists); any other method falls through the if/elif chain, does
nothing, and returns None. -/
def pymc3Run (sampleF : PSt → PTrace) (adviF : PSt → List (String × Rat))
    (method : String) (st : PSt) : PSt × Except String (Option PyRunResult) :=
  if method = "mcmc" then
    let tr := sampleF st
    let st1 := { st with trace := some tr }
    (st1, .ok (some (.mcmc st1.specRef tr
      (pmGetTransformedVars (pmUnobservedRVs st1.nodes) tr.varnames))))
  else if method = "advi" then
    let ps := adviF st
    let st1 := { st with adviParams := some ps }
    match st1.trace with
    | some tr => (st1, .ok (some (.advi st1.specRef ps
        (pmGetTransformedVars (pmUnobservedRVs st1.nodes) tr.varnames))))
    | none => (st1, .error "AttributeError: trace")
  else (st, .ok none)

/-! ## Stan (program-text) back end -/

/-- A keyword-argument value as it reaches the Stan distribution mapping
after prior expansion: leaf Python values pass through, an expanded nested
prior contributes its parameter name as a plain string.  strv also covers
the literal strings of the mapping table itself; other stands for values
with no meaningful Stan rendering (graph expressions). -/
inductive SVal where
  | int (i : Int)
  | flt (q : Rat)
  | arr (a : NpArr)
  | strv (s : String)
  | other
deriving DecidableEq, Repr

/-- Python join with a comma-space separator. -/
def joinComma : List String → String
  | [] => ""
  | [x] => x
  | x :: rest => x ++ ", " ++ joinComma rest

/-- Python join with a plus separator surrounded by spaces. -/
def joinPlus : List String → String
  | [] => ""
  | [x] => x
  | x :: rest => x ++ " + " ++ joinPlus rest

/-- Python str of a float: exact for the integral values exercised here
(2 renders as 2.0); non-integral rationals use the raw rational text, an
approximation of the float repr that no proved property depends on. -/
def pyFloatStr (q : Rat) : String :=
  if q.den = 1 then toString q.num ++ ".0" else toString q

/-- Python str of an argument value, as interpolated into the statement. -/
def svalStr : SVal → String
  | .int i => toString i
  | .flt q => pyFloatStr q
  | .arr _ => "array"
  | .strv s => s
  | .other => "object"

/-- One row of the Stan distribution mapping table: Stan name, positional
argument templates (a leading hash marks a placeholder bound to a named
Prior argument), and the optional bound annotation. -/
structure StanDistInfo where
  sname : String
  sargs : List String
  sbounds : String
deriving DecidableEq, Repr

/-- The static distribution mapping table of StanBackEnd (dists). -/
def stanDists : List (String × StanDistInfo) :=
  [("Normal", ⟨"normal", ["#mu", "#sd"], ""⟩),
   ("Cauchy", ⟨"cauchy", ["#alpha", "#beta"], ""⟩),
   ("HalfNormal", ⟨"normal", ["0", "#sd"], "<lower=0>"⟩),
   ("HalfCauchy", ⟨"cauchy", ["0", "#beta"], "<lower=0>"⟩)]

/-- The keys of the mapping table. -/
def stanDistNames : List String := stanDists.map (fun p => p.1)

/-- The exact error text for an unknown distribution in the Stan back end. -/
def stanUnknownMsg (dist : String) : String :=
  "There is no distribution named \x27" ++ dist ++ "\x27 in Stan."

/-- Python str of a set of strings (braces, quoted elements), in the
deterministic order this embedding keeps the missing-argument list. -/
def pySetStr (l : List String) : String :=
  "\x7b" ++ joinComma (l.map (fun m => "\x27" ++ m ++ "\x27")) ++ "\x7d"

/-- The exact error text for missing mandatory distribution arguments. -/
def stanMissingMsg (dist : String) (missing : List String) : String :=
  "The following mandatory parameters of the " ++ dist ++
    " distribution are missing: " ++ pySetStr missing ++ "."

/-- Does the argument template start with the placeholder hash mark. -/
def isHashArg (p : String) : Bool :=
  match p.data with
  | c :: _ => c = '#'
  | [] => false

/-- Resolve one argument template: a hash placeholder takes the named value
from the supplied keyword arguments (the preceding missing-argument check
guarantees the lookup succeeds; the default is unreachable), anything else
is the table literal itself, a plain string. -/
def resolveArg (kwargs : List (String × SVal)) (p : String) : SVal :=
  if isHashArg p then (kwargs.lookup (p.drop 1)).getD (.strv p) else .strv p

/-- The numpy-array coercion applied to every resolved argument: an ndarray
value becomes the float of its first element.  A multi-element matrix row or
an empty array would raise in Python and is left unchanged here (no claim
reaches that case). -/
def coerceNp : SVal → SVal
  | .arr (.vec (x :: _)) => .flt x
  | .arr (.mat ((x :: []) :: _)) => .flt x
  | v => v

/-- The fully resolved and coerced positional argument list (dp in the
source). -/
def stanDp (sd : StanDistInfo) (kwargs : List (String × SVal)) : List SVal :=
  (sd.sargs.map (resolveArg kwargs)).map coerceNp

/-- The rendered distribution call term, percent-formatted as name, open
parenthesis, comma-joined arguments, close parenthesis, semicolon. -/
def stanDistTermOf (sd : StanDistInfo) (kwargs : List (String × SVal)) : String :=
  sd.sname ++ "(" ++ joinComma ((stanDp sd kwargs).map svalStr) ++ ");"

/-- The rendered distribution call term looked up by graph-vocabulary name
(empty for an unknown name, which the mapping rejects before rendering). -/
def stanDistTermStr (dist : String) (kwargs : List (String × SVal)) : String :=
  match stanDists.lookup dist with
  | some sd => stanDistTermOf sd kwargs
  | none => ""

/-- The bound annotation of a mapped distribution. -/
def stanBoundsOf (dist : String) : String :=
  match stanDists.lookup dist with
  | some sd => sd.sbounds
  | none => ""

/-- The placeholder-bound mandatory argument names of a table row. -/
def stanLookupArgs (sd : StanDistInfo) : List String :=
  (sd.sargs.filter isHashArg).map (fun a => a.drop 1)

/-- The mandatory names the supplied keyword arguments omit. -/
def stanMissingArgs (sd : StanDistInfo) (kwargs : List (String × SVal)) : List String :=
  (stanLookupArgs sd).filter (fun a => (kwargs.lookup a).isNone)

/-- StanBackEnd map dist: reject unknown names, reject missing mandatory
placeholder arguments, otherwise substitute, coerce, and render the call
term, returning it with the bound annotation. -/
def stanMapDist (dist : String) (kwargs : List (String × SVal)) :
    Except String (String × String) :=
  match stanDists.lookup dist with
  | none => .error (stanUnknownMsg dist)
  | some sd =>
    let missing := stanMissingArgs sd kwargs
    if missing.isEmpty then .ok (stanDistTermOf sd kwargs, sd.sbounds)
    else .error (stanMissingMsg dist missing)

/-- A parameter block declaration: type text, bound annotation, variable
name; rendered as in the source percent format. -/
structure ParamDecl where
  ptype : String
  bounds : String
  vname : String
deriving DecidableEq, Repr

/-- Rendered parameter declaration text. -/
def ParamDecl.render (d : ParamDecl) : String :=
  d.ptype ++ d.bounds ++ " " ++ d.vname ++ ";"

/-- A model block sampling statement: left-hand name and right-hand
distribution text, rendered with the tilde between and a final semicolon. -/
structure ModelStmt where
  lhs : String
  rhs : String
deriving DecidableEq, Repr

/-- Rendered model statement text. -/
def ModelStmt.render (m : ModelStmt) : String := m.lhs ++ " ~ " ++ m.rhs ++ ";"

/-- StanBackEnd instance state: the five statement blocks, the data payload
X, the running fitted-mean product list, the suppressed variable names, the
assembled program text, and the retained spec. -/
structure SSt where
  parameters : List ParamDecl
  transformed_parameters : List String
  data : List String
  transformed_data : List String
  X : List (String × NpArr)
  model : List ModelStmt
  mu : List String
  suppressVars : List String
  modelCode : Option String
  specRef : Option ModelSpec
deriving DecidableEq, Repr

/-- StanBackEnd reset: everything cleared. -/
def stanReset : SSt := ⟨[], [], [], [], [], [], [], [], none, none⟩

/-- Python dict assignment on the data payload. -/
def pySetEntry (l : List (String × NpArr)) (k : String) (v : NpArr) :
    List (String × NpArr) :=
  if l.any (fun e => e.1 = k) then l.map (fun e => if e.1 = k then (k, v) else e)
  else l ++ [(k, v)]

/-- The type text of a parameter declaration sized to a column count. -/
def stanParFor (nCols : Nat) : String :=
  if nCols = 1 then "real" else "vector[" ++ toString nCols ++ "]"

/-- StanBackEnd add data: declare the data block entry (vector or matrix
sized to cases and columns), register the squeezed float data under the
derived data key, and append the product term to the fitted-mean list. -/
def stanAddData (st : SSt) (nCases nCols : Nat) (name : String) (m : Mat) : SSt :=
  let stanData :=
    if nCols = 1 then "vector[" ++ toString nCases ++ "]"
    else "matrix[" ++ toString nCases ++ ", " ++ toString nCols ++ "]"
  { st with
    data := st.data ++ [stanData ++ " " ++ name ++ "_data;"],
    X := pySetEntry st.X (name ++ "_data") (npSqueeze (.mat m)),
    mu := st.mu ++ [name ++ "_data * " ++ name] }

mutual
/-- StanBackEnd add parameters: expand every Prior-valued argument first
(appending the nested declarations and statements), then map the
distribution; on success declare the parameter (real or vector with the
bound annotation) and append the sampling statement, returning the name.
Statements appended before a failure persist, as Python side effects do. -/
def stanAddParameters (st : SSt) (name : String) (nCols : Nat) (p : Prior) :
    SSt × Except String String :=
  match p with
  | .mk dname args =>
    match stanExpandArgs st name args with
    | (st1, .error e) => (st1, .error e)
    | (st1, .ok kwargs) =>
      match stanMapDist dname kwargs with
      | .error e => (st1, .error e)
      | .ok (dterm, bounds) =>
        ({ st1 with
           parameters := st1.parameters ++ [⟨stanParFor nCols, bounds, name⟩],
           model := st1.model ++ [⟨name, dterm⟩] }, .ok name)
/-- Expand each keyword argument in mapping order. -/
def stanExpandArgs (st : SSt) (name : String) (as : Args) :
    SSt × Except String (List (String × SVal)) :=
  match as with
  | .nil => (st, .ok [])
  | .cons k v rest =>
    match stanExpandArg st name k v with
    | (st1, .ok m) =>
      match stanExpandArgs st1 name rest with
      | (st2, .ok ms) => (st2, .ok ((k, m) :: ms))
      | (st2, .error e) => (st2, .error e)
    | (st1, .error e) => (st1, .error e)
/-- Expand one keyword argument: a nested Prior recurses with the derived
name and one column, contributing the materialized parameter name; leaf
values pass through. -/
def stanExpandArg (st : SSt) (name k : String) (v : PriorVal) :
    SSt × Except String SVal :=
  match v with
  | .pr p =>
    match stanAddParameters st (name ++ "_" ++ k) 1 p with
    | (st1, .ok nm) => (st1, .ok (.strv nm))
    | (st1, .error e) => (st1, .error e)
  | .int i => (st, .ok (.int i))
  | .flt q => (st, .ok (.flt q))
  | .arr a => (st, .ok (.arr a))
  | .gexpr _ => (st, .ok .other)
end

/-- The per-level loop of the random-effects branch of StanBackEnd build. -/
def stanBuildLevels (st : SSt) (nCases : Nat) (label : String) (p : Prior)
    (levels : List (String × Mat)) : SSt × Except String Unit :=
  match levels with
  | [] => (st, .ok ())
  | (level, ldata) :: rest =>
    let nCols := matCols ldata
    let nm := "u_" ++ label ++ "_" ++ level
    let st1 := stanAddData st nCases nCols nm ldata
    match stanAddParameters st1 nm nCols p with
    | (st2, .ok _) => stanBuildLevels st2 nCases label p rest
    | (st2, .error e) => (st2, .error e)

/-- The term loop of StanBackEnd build. -/
def stanBuildTerms (st : SSt) (nCases : Nat) (ts : List Term) :
    SSt × Except String Unit :=
  match ts with
  | [] => (st, .ok ())
  | t :: rest =>
    match t.data with
    | .grouped levels =>
      match stanBuildLevels st nCases t.name t.prior levels with
      | (st1, .ok _) => stanBuildTerms st1 nCases rest
      | (st1, .error e) => (st1, .error e)
    | .plain m =>
      let pre := if t.random then "u_" else "b_"
      let nCols := matCols m
      let nm := pre ++ t.name
      let st1 := stanAddData st nCases nCols nm m
      match stanAddParameters st1 nm nCols t.prior with
      | (st2, .ok _) => stanBuildTerms st2 nCases rest
      | (st2, .error e) => (st2, .error e)

/-- One rendered program block: name, open brace, tab-indented newline
terminated statements, close brace. -/
def formatBlock (bname : String) (els : List String) : String :=
  bname ++ " \x7b\n" ++ String.join (els.map (fun e => "\t" ++ e ++ "\n")) ++ "\x7d\n"

/-- The whole program text, five blocks in fixed order. -/
def stanModelCode (st : SSt) : String :=
  formatBlock "data" st.data ++
  formatBlock "transformed data" st.transformed_data ++
  formatBlock "parameters" (st.parameters.map ParamDecl.render) ++
  formatBlock "transformed parameters" st.transformed_parameters ++
  formatBlock "model" (st.model.map ModelStmt.render)

/-- The fixed tail of StanBackEnd build after the term loop: declare and
define yhat (suppressed from output), declare the response vector, the
positive scale sigma, the outcome statement, register the response data, and
assemble the program text (the external compiler invocation on that text is
outside this model). -/
def stanFinalize (st : SSt) (spec : ModelSpec) (nCases : Nat) : SSt :=
  let yhat := "yhat = " ++ joinPlus st.mu ++ ";"
  let st := { st with
    transformed_parameters := st.transformed_parameters ++
      ["vector[" ++ toString nCases ++ "] yhat;", yhat],
    suppressVars := st.suppressVars ++ ["yhat"] }
  let st := { st with
    data := st.data ++ ["vector[" ++ toString nCases ++ "] y;"],
    parameters := st.parameters ++ [(⟨"real", "<lower=0>", "sigma"⟩ : ParamDecl)],
    model := st.model ++ [(⟨"y", "normal(yhat, sigma)"⟩ : ModelStmt)],
    X := pySetEntry st.X "y" (npSqueeze (.mat spec.y.data)) }
  { st with modelCode := some (stanModelCode st), specRef := some spec }

/-- StanBackEnd build: optionally reset, fix the case count from the
response length, run the term loop, and finalize on success. -/
def stanBuild (st : SSt) (spec : ModelSpec) (reset : Bool) :
    SSt × Except String Unit :=
  let st := if reset then stanReset else st
  let nCases := spec.y.data.length
  match stanBuildTerms st nCases spec.terms with
  | (st1, .ok _) => (stanFinalize st1 spec nCases, .ok ())
  | (st1, .error e) => (st1, .error e)

/-! ## Trace reconstruction (program-text back end) -/

/-- One per-chain sub-trace of the reconstructed multi-chain trace: chain
index, variable names, and per-variable draw slices. -/
structure Strace where
  chainIdx : Nat
  varnames : List String
  samples : List (String × List Rat)
deriving DecidableEq, Repr

/-- StanBackEnd convert to multitrace: given the chain count, the per-chain
sample count, and the flat per-variable draw arrays of the external fit, one
sub-trace per chain, each variable sliced to the contiguous window of that
chain. -/
def convertToMultitrace (nChains nSamples : Nat)
    (result : List (String × List Rat)) : List Strace :=
  (List.range nChains).map (fun i =>
    ⟨i, result.map (fun p => p.1),
        result.map (fun p => (p.1, (p.2.drop (i * nSamples)).take nSamples))⟩)

/-! ## Expected shapes of prior expansion (derived characterizations) -/

/-- The materialized value a single argument contributes: a nested Prior
becomes a reference to the node built under the derived label. -/
def pmSpecVal (label k : String) : PriorVal → MVal
  | .pr _ => .ref (label ++ "_" ++ k)
  | .int i => .int i
  | .flt q => .flt q
  | .arr a => .arr a
  | .gexpr g => .gexpr g

/-- The materialized argument list of a node built under the given label. -/
def pmSpecArgs (label : String) : Args → List (String × MVal)
  | .nil => []
  | .cons k v rest => (k, pmSpecVal label k v) :: pmSpecArgs label rest

mutual
/-- The nodes a successful graph-back-end prior expansion appends, in
creation order: depth-first over the arguments, the node itself last. -/
def pmSpecNodes (label : String) : Prior → List PNode
  | .mk dname args => pmSpecNodesArgs label args ++ [⟨label, dname, pmSpecArgs label args⟩]
/-- Nodes contributed by an argument mapping. -/
def pmSpecNodesArgs (label : String) : Args → List PNode
  | .nil => []
  | .cons k v rest => pmSpecNodesVal label k v ++ pmSpecNodesArgs label rest
/-- Nodes contributed by one argument value. -/
def pmSpecNodesVal (label k : String) : PriorVal → List PNode
  | .pr p => pmSpecNodes (label ++ "_" ++ k) p
  | _ => []
end

mutual
/-- The labels a prior expansion materializes under a root label, in
creation order: every nested hyperprior under parent label, underscore,
argument key; the root last. -/
def expandedLabels (label : String) : Prior → List String
  | .mk _ args => expandedLabelsArgs label args ++ [label]
/-- Labels contributed by an argument mapping. -/
def expandedLabelsArgs (label : String) : Args → List String
  | .nil => []
  | .cons k v rest => expandedLabelsVal label k v ++ expandedLabelsArgs label rest
/-- Labels contributed by one argument value. -/
def expandedLabelsVal (label k : String) : PriorVal → List String
  | .pr p => expandedLabels (label ++ "_" ++ k) p
  | _ => []
end

mutual
/-- The number of expansion calls an acyclic prior tree induces: one for the
prior itself plus one per nested hyperprior, recursively. -/
def numPriorCalls : Prior → Nat
  | .mk _ args => 1 + numPriorCallsArgs args
/-- Calls induced by an argument mapping. -/
def numPriorCallsArgs : Args → Nat
  | .nil => 0
  | .cons _ v rest => numPriorCallsVal v + numPriorCallsArgs rest
/-- Calls induced by one argument value. -/
def numPriorCallsVal : PriorVal → Nat
  | .pr p => numPriorCalls p
  | _ => 0
end

/-! ## Characterization of the graph back end prior expansion -/

mutual
theorem pmBuildDist_ok (ns : List PNode) (label : String) (p : Prior)
    (ns' : List PNode) (r : MVal) (h : pmBuildDist ns label p = (ns', .ok r)) :
    ns' = ns ++ pmSpecNodes label p ∧ r = .ref label := by
  match p with
  | .mk dname args =>
    rw [pmBuildDist] at h
    by_cases hd : dname ∈ pmDistNames
    · simp only [hd, if_true] at h
      rcases he : pmExpandArgs ns label args with ⟨ns1, res⟩
      rw [he] at h
      cases res with
      | ok margs =>
        obtain ⟨h1, h2⟩ := pmExpandArgs_ok ns label args ns1 margs he
        simp only [Prod.mk.injEq, Except.ok.injEq] at h
        refine ⟨?_, h.2.symm⟩
        rw [← h.1, h1, h2, pmSpecNodes, List.append_assoc]
      | error e => simp at h
    · simp [hd] at h
theorem pmExpandArgs_ok (ns : List PNode) (label : String) (as : Args)
    (ns' : List PNode) (ms : List (String × MVal))
    (h : pmExpandArgs ns label as = (ns', .ok ms)) :
    ns' = ns ++ pmSpecNodesArgs label as ∧ ms = pmSpecArgs label as := by
  match as with
  | .nil =>
    rw [pmExpandArgs] at h
    simp only [Prod.mk.injEq, Except.ok.injEq] at h
    simp [pmSpecNodesArgs, pmSpecArgs, ← h.1, ← h.2]
  | .cons k v rest =>
    rw [pmExpandArgs] at h
    rcases he : pmExpandArg ns label k v with ⟨ns1, res1⟩
    rw [he] at h
    cases res1 with
    | ok m =>
      dsimp only at h
      rcases he2 : pmExpandArgs ns1 label rest with ⟨ns2, res2⟩
      rw [he2] at h
      cases res2 with
      | ok ms2 =>
        obtain ⟨h1, h2⟩ := pmExpandArg_ok ns label k v ns1 m he
        obtain ⟨h3, h4⟩ := pmExpandArgs_ok ns1 label rest ns2 ms2 he2
        simp only [Prod.mk.injEq, Except.ok.injEq] at h
        constructor
        · rw [← h.1, h3, h1, pmSpecNodesArgs, List.append_assoc]
        · rw [← h.2, h2, h4, pmSpecArgs]
      | error e => simp at h
    | error e => simp at h
theorem pmExpandArg_ok (ns : List PNode) (label k : String) (v : PriorVal)
    (ns' : List PNode) (m : MVal) (h : pmExpandArg ns label k v = (ns', .ok m)) :
    ns' = ns ++ pmSpecNodesVal label k v ∧ m = pmSpecVal label k v := by
  match v with
  | .pr p =>
    rw [pmExpandArg] at h
    obtain ⟨h1, h2⟩ := pmBuildDist_ok ns (label ++ "_" ++ k) p ns' m h
    exact ⟨by rw [h1, pmSpecNodesVal], by rw [h2, pmSpecVal]⟩
  | .int i =>
    rw [pmExpandArg] at h
    simp only [Prod.mk.injEq, Except.ok.injEq] at h
    simp [pmSpecNodesVal, pmSpecVal, ← h.1, ← h.2]
  | .flt q =>
    rw [pmExpandArg] at h
    simp only [Prod.mk.injEq, Except.ok.injEq] at h
    simp [pmSpecNodesVal, pmSpecVal, ← h.1, ← h.2]
  | .arr a =>
    rw [pmExpandArg] at h
    simp only [Prod.mk.injEq, Except.ok.injEq] at h
    simp [pmSpecNodesVal, pmSpecVal, ← h.1, ← h.2]
  | .gexpr g =>
    rw [pmExpandArg] at h
    simp only [Prod.mk.injEq, Except.ok.injEq] at h
    simp [pmSpecNodesVal, pmSpecVal, ← h.1, ← h.2]
end

mutual
theorem pmSpecNodes_labels (label : String) (p : Prior) :
    (pmSpecNodes label p).map PNode.label = expandedLabels label p := by
  match p with
  | .mk dname args =>
    rw [pmSpecNodes, expandedLabels, List.map_append,
      pmSpecNodesArgs_labels label args]
    rfl
theorem pmSpecNodesArgs_labels (label : String) (as : Args) :
    (pmSpecNodesArgs label as).map PNode.label = expandedLabelsArgs label as := by
  match as with
  | .nil => rfl
  | .cons k v rest =>
    rw [pmSpecNodesArgs, expandedLabelsArgs, List.map_append,
      pmSpecNodesVal_labels label k v, pmSpecNodesArgs_labels label rest]
theorem pmSpecNodesVal_labels (label k : String) (v : PriorVal) :
    (pmSpecNodesVal label k v).map PNode.label = expandedLabelsVal label k v := by
  match v with
  | .pr p => rw [pmSpecNodesVal, expandedLabelsVal, pmSpecNodes_labels]
  | .int i => rfl
  | .flt q => rfl
  | .arr a => rfl
  | .gexpr g => rfl
end

mutual
theorem pmSpecNodes_length (label : String) (p : Prior) :
    (pmSpecNodes label p).length = numPriorCalls p := by
  match p with
  | .mk dname args =>
    rw [pmSpecNodes, numPriorCalls, List.length_append,
      pmSpecNodesArgs_length label args]
    simp [Nat.add_comm]
theorem pmSpecNodesArgs_length (label : String) (as : Args) :
    (pmSpecNodesArgs label as).length = numPriorCallsArgs as := by
  match as with
  | .nil => rfl
  | .cons k v rest =>
    rw [pmSpecNodesArgs, numPriorCallsArgs, List.length_append,
      pmSpecNodesVal_length label k v, pmSpecNodesArgs_length label rest]
theorem pmSpecNodesVal_length (label k : String) (v : PriorVal) :
    (pmSpecNodesVal label k v).length = numPriorCallsVal v := by
  match v with
  | .pr p => rw [pmSpecNodesVal, numPriorCallsVal, pmSpecNodes_length]
  | .int i => rfl
  | .flt q => rfl
  | .arr a => rfl
  | .gexpr g => rfl
end

/-! ## Expected shapes of the Stan prior expansion -/

/-- The keyword value one argument contributes to the distribution mapping:
a nested Prior contributes its materialized parameter name. -/
def stanSpecKwargVal (name k : String) : PriorVal → SVal
  | .pr _ => .strv (name ++ "_" ++ k)
  | .int i => .int i
  | .flt q => .flt q
  | .arr a => .arr a
  | .gexpr _ => .other

/-- The keyword arguments a successful expansion hands to the mapping. -/
def stanSpecKwargs (name : String) : Args → List (String × SVal)
  | .nil => []
  | .cons k v rest => (k, stanSpecKwargVal name k v) :: stanSpecKwargs name rest

mutual
/-- The parameter declarations a successful Stan prior expansion appends, in
creation order: nested hyperpriors first, the parameter itself last. -/
def stanSpecParams (name : String) (nCols : Nat) : Prior → List ParamDecl
  | .mk dname args =>
    stanSpecParamsArgs name args ++ [⟨stanParFor nCols, stanBoundsOf dname, name⟩]
/-- Declarations contributed by an argument mapping. -/
def stanSpecParamsArgs (name : String) : Args → List ParamDecl
  | .nil => []
  | .cons k v rest => stanSpecParamsVal name k v ++ stanSpecParamsArgs name rest
/-- Declarations contributed by one argument value. -/
def stanSpecParamsVal (name k : String) : PriorVal → List ParamDecl
  | .pr p => stanSpecParams (name ++ "_" ++ k) 1 p
  | _ => []
end

mutual
/-- The model statements a successful Stan prior expansion appends. -/
def stanSpecModel (name : String) : Prior → List ModelStmt
  | .mk dname args =>
    stanSpecModelArgs name args ++
      [⟨name, stanDistTermStr dname (stanSpecKwargs name args)⟩]
/-- Statements contributed by an argument mapping. -/
def stanSpecModelArgs (name : String) : Args → List ModelStmt
  | .nil => []
  | .cons k v rest => stanSpecModelVal name k v ++ stanSpecModelArgs name rest
/-- Statements contributed by one argument value. -/
def stanSpecModelVal (name k : String) : PriorVal → List ModelStmt
  | .pr p => stanSpecModel (name ++ "_" ++ k) p
  | _ => []
end

mutual
theorem stanAddParameters_ok (st : SSt) (name : String) (nCols : Nat) (p : Prior)
    (st' : SSt) (r : String) (h : stanAddParameters st name nCols p = (st', .ok r)) :
    st' = { st with parameters := st.parameters ++ stanSpecParams name nCols p,
                    model := st.model ++ stanSpecModel name p } ∧ r = name := by
  match p with
  | .mk dname args =>
    rw [stanAddParameters] at h
    rcases he : stanExpandArgs st name args with ⟨st1, res⟩
    rw [he] at h
    cases res with
    | error e => simp at h
    | ok kwargs =>
      dsimp only at h
      obtain ⟨h1, h2⟩ := stanExpandArgs_ok st name args st1 kwargs he
      rcases hm : stanMapDist dname kwargs with e | ⟨dterm, bounds⟩
      · rw [hm] at h; simp at h
      · rw [hm] at h
        dsimp only at h
        simp only [Prod.mk.injEq, Except.ok.injEq] at h
        refine ⟨?_, h.2.symm⟩
        rw [stanMapDist] at hm
        rcases hl : stanDists.lookup dname with _ | sd
        · rw [hl] at hm; simp at hm
        · rw [hl] at hm
          dsimp only at hm
          by_cases hmiss : (stanMissingArgs sd kwargs).isEmpty
          · simp only [hmiss, if_true, Except.ok.injEq, Prod.mk.injEq] at hm
            obtain ⟨hd1, hd2⟩ := hm
            subst h2
            rw [← h.1, h1, ← hd1, ← hd2]
            simp [stanSpecParams, stanSpecModel, stanDistTermStr, stanBoundsOf,
              hl, List.append_assoc]
          · simp [hmiss] at hm
theorem stanExpandArgs_ok (st : SSt) (name : String) (as : Args)
    (st' : SSt) (kw : List (String × SVal))
    (h : stanExpandArgs st name as = (st', .ok kw)) :
    st' = { st with parameters := st.parameters ++ stanSpecParamsArgs name as,
                    model := st.model ++ stanSpecModelArgs name as } ∧
      kw = stanSpecKwargs name as := by
  match as with
  | .nil =>
    rw [stanExpandArgs] at h
    simp only [Prod.mk.injEq, Except.ok.injEq] at h
    simp [stanSpecParamsArgs, stanSpecModelArgs, stanSpecKwargs, ← h.1, ← h.2]
  | .cons k v rest =>
    rw [stanExpandArgs] at h
    rcases he : stanExpandArg st name k v with ⟨st1, res1⟩
    rw [he] at h
    cases res1 with
    | error e => simp at h
    | ok m =>
      dsimp only at h
      rcases he2 : stanExpandArgs st1 name rest with ⟨st2, res2⟩
      rw [he2] at h
      cases res2 with
      | error e => simp at h
      | ok ms =>
        obtain ⟨h1, h2⟩ := stanExpandArg_ok st name k v st1 m he
        obtain ⟨h3, h4⟩ := stanExpandArgs_ok st1 name rest st2 ms he2
        simp only [Prod.mk.injEq, Except.ok.injEq] at h
        constructor
        · rw [← h.1, h3, h1, stanSpecParamsArgs, stanSpecModelArgs]
          simp [List.append_assoc]
        · rw [← h.2, h2, h4, stanSpecKwargs]
theorem stanExpandArg_ok (st : SSt) (name k : String) (v : PriorVal)
    (st' : SSt) (m : SVal) (h : stanExpandArg st name k v = (st', .ok m)) :
    st' = { st with parameters := st.parameters ++ stanSpecParamsVal name k v,
                    model := st.model ++ stanSpecModelVal name k v } ∧
      m = stanSpecKwargVal name k v := by
  match v with
  | .pr p =>
    rw [stanExpandArg] at h
    rcases he : stanAddParameters st (name ++ "_" ++ k) 1 p with ⟨st1, res⟩
    rw [he] at h
    cases res with
    | error e => simp at h
    | ok nm =>
      dsimp only at h
      simp only [Prod.mk.injEq, Except.ok.injEq] at h
      obtain ⟨h1, h2⟩ := stanAddParameters_ok st (name ++ "_" ++ k) 1 p st1 nm he
      constructor
      · rw [← h.1, h1, stanSpecParamsVal, stanSpecModelVal]
      · rw [← h.2, h2, stanSpecKwargVal]
  | .int i =>
    rw [stanExpandArg] at h
    simp only [Prod.mk.injEq, Except.ok.injEq] at h
    simp [stanSpecParamsVal, stanSpecModelVal, stanSpecKwargVal, ← h.1, ← h.2]
  | .flt q =>
    rw [stanExpandArg] at h
    simp only [Prod.mk.injEq, Except.ok.injEq] at h
    simp [stanSpecParamsVal, stanSpecModelVal, stanSpecKwargVal, ← h.1, ← h.2]
  | .arr a =>
    rw [stanExpandArg] at h
    simp only [Prod.mk.injEq, Except.ok.injEq] at h
    simp [stanSpecParamsVal, stanSpecModelVal, stanSpecKwargVal, ← h.1, ← h.2]
  | .gexpr g =>
    rw [stanExpandArg] at h
    simp only [Prod.mk.injEq, Except.ok.injEq] at h
    simp [stanSpecParamsVal, stanSpecModelVal, stanSpecKwargVal, ← h.1, ← h.2]
end

mutual
theorem stanAddParameters_appends (st : SSt) (name : String) (nCols : Nat)
    (p : Prior) (st2 : SSt) (res2 : Except String String)
    (h : stanAddParameters st name nCols p = (st2, res2)) :
    ∃ newP newM,
      st2 = { st with parameters := st.parameters ++ newP,
                      model := st.model ++ newM } ∧
      (∀ d ∈ newP, d.vname = name ∨ ∃ s, d.vname = name ++ "_" ++ s) ∧
      (∀ m ∈ newM, (m.lhs = name ∨ ∃ s, m.lhs = name ++ "_" ++ s) ∧
        ∃ dn a2, m.rhs = dn ++ "(" ++ a2 ++ ");") := by
  match p with
  | .mk dname args =>
    rw [stanAddParameters] at h
    rcases he : stanExpandArgs st name args with ⟨st1, res⟩
    rw [he] at h
    obtain ⟨newP, newM, hst1, hP, hM⟩ :=
      stanExpandArgs_appends st name args st1 res he
    cases res with
    | error e =>
      simp only [Prod.mk.injEq] at h
      refine ⟨newP, newM, h.1 ▸ hst1, fun d hd => .inr (hP d hd), fun m hm =>
        ⟨.inr (hM m hm).1, (hM m hm).2⟩⟩
    | ok kwargs =>
      dsimp only at h
      rcases hm : stanMapDist dname kwargs with e | ⟨dterm, bounds⟩
      · rw [hm] at h
        dsimp only at h
        simp only [Prod.mk.injEq] at h
        refine ⟨newP, newM, h.1 ▸ hst1, fun d hd => .inr (hP d hd), fun m hmm =>
          ⟨.inr (hM m hmm).1, (hM m hmm).2⟩⟩
      · rw [hm] at h
        dsimp only at h
        simp only [Prod.mk.injEq] at h
        refine ⟨newP ++ [⟨stanParFor nCols, bounds, name⟩],
          newM ++ [⟨name, dterm⟩], ?_, ?_, ?_⟩
        · rw [← h.1, hst1]
          simp [List.append_assoc]
        · intro d hd
          rcases List.mem_append.1 hd with hd | hd
          · exact .inr (hP d hd)
          · simp only [List.mem_singleton] at hd
            subst hd
            exact .inl rfl
        · intro m hmm
          rcases List.mem_append.1 hmm with hmm | hmm
          · exact ⟨.inr (hM m hmm).1, (hM m hmm).2⟩
          · simp only [List.mem_singleton] at hmm
            subst hmm
            refine ⟨.inl rfl, ?_⟩
            rw [stanMapDist] at hm
            rcases hl : stanDists.lookup dname with _ | sd
            · rw [hl] at hm; simp at hm
            · rw [hl] at hm
              dsimp only at hm
              by_cases hmiss : (stanMissingArgs sd kwargs).isEmpty
              · simp only [hmiss, if_true, Except.ok.injEq, Prod.mk.injEq] at hm
                exact ⟨sd.sname, joinComma ((stanDp sd kwargs).map svalStr),
                  by rw [← hm.1, stanDistTermOf]⟩
              · simp [hmiss] at hm
theorem stanExpandArgs_appends (st : SSt) (name : String) (as : Args)
    (st2 : SSt) (res2 : Except String (List (String × SVal)))
    (h : stanExpandArgs st name as = (st2, res2)) :
    ∃ newP newM,
      st2 = { st with parameters := st.parameters ++ newP,
                      model := st.model ++ newM } ∧
      (∀ d ∈ newP, ∃ s, d.vname = name ++ "_" ++ s) ∧
      (∀ m ∈ newM, (∃ s, m.lhs = name ++ "_" ++ s) ∧
        ∃ dn a2, m.rhs = dn ++ "(" ++ a2 ++ ");") := by
  match as with
  | .nil =>
    rw [stanExpandArgs] at h
    simp only [Prod.mk.injEq] at h
    exact ⟨[], [], by simp [← h.1], by simp, by simp⟩
  | .cons k v rest =>
    rw [stanExpandArgs] at h
    rcases he : stanExpandArg st name k v with ⟨st1, res1⟩
    rw [he] at h
    obtain ⟨newP, newM, hst1, hP, hM⟩ := stanExpandArg_appends st name k v st1 res1 he
    cases res1 with
    | error e =>
      simp only [Prod.mk.injEq] at h
      exact ⟨newP, newM, h.1 ▸ hst1, hP, hM⟩
    | ok m =>
      dsimp only at h
      rcases he2 : stanExpandArgs st1 name rest with ⟨stB, resB⟩
      rw [he2] at h
      obtain ⟨newP2, newM2, hstB, hP2, hM2⟩ :=
        stanExpandArgs_appends st1 name rest stB resB he2
      have hcomp : stB = { st with parameters := st.parameters ++ (newP ++ newP2),
                                   model := st.model ++ (newM ++ newM2) } := by
        rw [hstB, hst1]
        simp [List.append_assoc]
      have hPc : ∀ d ∈ newP ++ newP2, ∃ s, d.vname = name ++ "_" ++ s := by
        intro d hd
        rcases List.mem_append.1 hd with hd | hd
        · exact hP d hd
        · exact hP2 d hd
      have hMc : ∀ m ∈ newM ++ newM2, (∃ s, m.lhs = name ++ "_" ++ s) ∧
          ∃ dn a2, m.rhs = dn ++ "(" ++ a2 ++ ");" := by
        intro m hm
        rcases List.mem_append.1 hm with hm | hm
        · exact hM m hm
        · exact hM2 m hm
      cases resB with
      | ok ms =>
        simp only [Prod.mk.injEq] at h
        exact ⟨newP ++ newP2, newM ++ newM2, h.1 ▸ hcomp, hPc, hMc⟩
      | error e =>
        simp only [Prod.mk.injEq] at h
        exact ⟨newP ++ newP2, newM ++ newM2, h.1 ▸ hcomp, hPc, hMc⟩
theorem stanExpandArg_appends (st : SSt) (name k : String) (v : PriorVal)
    (st2 : SSt) (res2 : Except String SVal)
    (h : stanExpandArg st name k v = (st2, res2)) :
    ∃ newP newM,
      st2 = { st with parameters := st.parameters ++ newP,
                      model := st.model ++ newM } ∧
      (∀ d ∈ newP, ∃ s, d.vname = name ++ "_" ++ s) ∧
      (∀ m ∈ newM, (∃ s, m.lhs = name ++ "_" ++ s) ∧
        ∃ dn a2, m.rhs = dn ++ "(" ++ a2 ++ ");") := by
  match v with
  | .pr p =>
    rw [stanExpandArg] at h
    rcases he : stanAddParameters st (name ++ "_" ++ k) 1 p with ⟨st1, res⟩
    rw [he] at h
    obtain ⟨newP, newM, hst1, hP, hM⟩ :=
      stanAddParameters_appends st (name ++ "_" ++ k) 1 p st1 res he
    have hPx : ∀ d ∈ newP, ∃ s, d.vname = name ++ "_" ++ s := by
      intro d hd
      rcases hP d hd with hh | ⟨s, hh⟩
      · exact ⟨k, hh⟩
      · exact ⟨k ++ "_" ++ s, by rw [hh]; simp [String.append_assoc]⟩
    have hMx : ∀ m ∈ newM, (∃ s, m.lhs = name ++ "_" ++ s) ∧
        ∃ dn a2, m.rhs = dn ++ "(" ++ a2 ++ ");" := by
      intro m hm
      refine ⟨?_, (hM m hm).2⟩
      rcases (hM m hm).1 with hh | ⟨s, hh⟩
      · exact ⟨k, hh⟩
      · exact ⟨k ++ "_" ++ s, by rw [hh]; simp [String.append_assoc]⟩
    cases res with
    | ok nm =>
      dsimp only at h
      simp only [Prod.mk.injEq] at h
      exact ⟨newP, newM, h.1 ▸ hst1, hPx, hMx⟩
    | error e =>
      simp only [Prod.mk.injEq] at h
      exact ⟨newP, newM, h.1 ▸ hst1, hPx, hMx⟩
  | .int i =>
    rw [stanExpandArg] at h
    simp only [Prod.mk.injEq] at h
    exact ⟨[], [], by simp [← h.1], by simp, by simp⟩
  | .flt q =>
    rw [stanExpandArg] at h
    simp only [Prod.mk.injEq] at h
    exact ⟨[], [], by simp [← h.1], by simp, by simp⟩
  | .arr a =>
    rw [stanExpandArg] at h
    simp only [Prod.mk.injEq] at h
    exact ⟨[], [], by simp [← h.1], by simp, by simp⟩
  | .gexpr g =>
    rw [stanExpandArg] at h
    simp only [Prod.mk.injEq] at h
    exact ⟨[], [], by simp [← h.1], by simp, by simp⟩
end

/-! ## Substring containment (the Python in operator, and message facts) -/

/-- needle occurs contiguously inside hay. -/
def SubStr (needle hay : String) : Prop :=
  ∃ s t, hay.data = s ++ needle.data ++ t

theorem subStr_refl (a : String) : SubStr a a := ⟨[], [], by simp⟩

theorem subStr_of_eq (a x y hay : String) (h : hay = x ++ a ++ y) : SubStr a hay :=
  ⟨x.data, y.data, by rw [h]; simp⟩

theorem subStr_pre (a y hay : String) (h : hay = a ++ y) : SubStr a hay :=
  ⟨[], y.data, by rw [h]; simp⟩

theorem subStr_suf (a y hay : String) (h : hay = y ++ a) : SubStr a hay :=
  ⟨y.data, [], by rw [h]; simp⟩

theorem subStr_trans {a b c : String} (h1 : SubStr a b) (h2 : SubStr b c) :
    SubStr a c := by
  obtain ⟨s1, t1, e1⟩ := h1
  obtain ⟨s2, t2, e2⟩ := h2
  exact ⟨s2 ++ s1, t1 ++ t2, by rw [e2, e1]; simp⟩

theorem subStr_joinComma {a : String} {l : List String} (h : a ∈ l) :
    SubStr a (joinComma l) := by
  induction l with
  | nil => cases h
  | cons x r ih =>
    rcases r with _ | ⟨y, r2⟩
    · rcases List.mem_cons.1 h with h | h
      · subst h; exact subStr_refl a
      · cases h
    · rcases List.mem_cons.1 h with h | h
      · subst h
        exact subStr_pre a (", " ++ joinComma (y :: r2)) _
          (by rw [joinComma] <;> simp [String.append_assoc])
      · exact subStr_trans (ih h)
          (subStr_suf (joinComma (y :: r2)) (x ++ ", ") _
            (by rw [joinComma]; simp [String.append_assoc]))

mutual
theorem stanSpecParams_names (name : String) (nCols : Nat) (p : Prior) :
    (stanSpecParams name nCols p).map ParamDecl.vname = expandedLabels name p := by
  match p with
  | .mk dname args =>
    rw [stanSpecParams, expandedLabels, List.map_append,
      stanSpecParamsArgs_names name args]
    rfl
theorem stanSpecParamsArgs_names (name : String) (as : Args) :
    (stanSpecParamsArgs name as).map ParamDecl.vname = expandedLabelsArgs name as := by
  match as with
  | .nil => rfl
  | .cons k v rest =>
    rw [stanSpecParamsArgs, expandedLabelsArgs, List.map_append,
      stanSpecParamsVal_names name k v, stanSpecParamsArgs_names name rest]
theorem stanSpecParamsVal_names (name k : String) (v : PriorVal) :
    (stanSpecParamsVal name k v).map ParamDecl.vname = expandedLabelsVal name k v := by
  match v with
  | .pr p => rw [stanSpecParamsVal, expandedLabelsVal, stanSpecParams_names]
  | .int i => rfl
  | .flt q => rfl
  | .arr a => rfl
  | .gexpr g => rfl
end

mutual
theorem expandedLabels_length (label : String) (p : Prior) :
    (expandedLabels label p).length = numPriorCalls p := by
  match p with
  | .mk dname args =>
    rw [expandedLabels, numPriorCalls, List.length_append,
      expandedLabelsArgs_length label args]
    simp [Nat.add_comm]
theorem expandedLabelsArgs_length (label : String) (as : Args) :
    (expandedLabelsArgs label as).length = numPriorCallsArgs as := by
  match as with
  | .nil => rfl
  | .cons k v rest =>
    rw [expandedLabelsArgs, numPriorCallsArgs, List.length_append,
      expandedLabelsVal_length label k v, expandedLabelsArgs_length label rest]
theorem expandedLabelsVal_length (label k : String) (v : PriorVal) :
    (expandedLabelsVal label k v).length = numPriorCallsVal v := by
  match v with
  | .pr p => rw [expandedLabelsVal, numPriorCallsVal, expandedLabels_length]
  | .int i => rfl
  | .flt q => rfl
  | .arr a => rfl
  | .gexpr g => rfl
end

/-- A label extended by an underscore and a suffix differs from the label. -/
theorem strExt_ne (name s : String) : name ++ "_" ++ s ≠ name := by
  intro h
  have h2 := congrArg String.length h
  have h3 : ("_" : String).length = 1 := rfl
  simp only [String.length_append, h3] at h2
  omega

/-- An unknown graph-vocabulary name has no row in the mapping table. -/
theorem stanLookup_none {d : String} (hd : d ∉ stanDistNames) :
    stanDists.lookup d = none := by
  simp only [stanDistNames, stanDists, List.map_cons, List.map_nil,
    List.mem_cons, List.not_mem_nil, or_false, not_or] at hd
  obtain ⟨h1, h2, h3, h4⟩ := hd
  simp [stanDists, List.lookup, beq_eq_false_iff_ne.mpr h1,
    beq_eq_false_iff_ne.mpr h2, beq_eq_false_iff_ne.mpr h3,
    beq_eq_false_iff_ne.mpr h4]

/-! ## Claim theorems: error handling -/

/-- C7: for every prior (or hyperprior) whose distribution name does not
resolve in the active back end's vocabulary, build fails with an error whose
message names the offending identifier and the back end, and no materialized
parameter node or sampling statement is produced for that prior.  In the
graph back end the check precedes all expansion, so the node list is
untouched; in the program-text back end nested hyperpriors expanded first
persist, but none of the appended declarations or statements carries the
failing prior's own name. -/
theorem unknown_distribution_build_error :
    (∀ ns label dname args, dname ∉ pmDistNames →
      pmBuildDist ns label (.mk dname args) = (ns, .error (pmUnknownMsg dname)) ∧
      SubStr dname (pmUnknownMsg dname) ∧ SubStr "PyMC3" (pmUnknownMsg dname)) ∧
    (∀ st name nCols dname args st1 kw, dname ∉ stanDistNames →
      stanExpandArgs st name args = (st1, .ok kw) →
      stanAddParameters st name nCols (.mk dname args) =
        (st1, .error (stanUnknownMsg dname)) ∧
      SubStr dname (stanUnknownMsg dname) ∧ SubStr "Stan" (stanUnknownMsg dname) ∧
      ∃ newP newM, st1.parameters = st.parameters ++ newP ∧
        st1.model = st.model ++ newM ∧
        (∀ d ∈ newP, d.vname ≠ name) ∧ (∀ m ∈ newM, m.lhs ≠ name)) := by
  constructor
  · intro ns label dname args hd
    refine ⟨?_, ?_, ?_⟩
    · rw [pmBuildDist]
      simp [hd]
    · exact subStr_of_eq _ "The Distribution class \x27"
        "\x27 was not found in PyMC3." _ rfl
    · refine subStr_of_eq _
        ("The Distribution class \x27" ++ dname ++ "\x27 was not found in ")
        "." _ ?_
      have htail : ("\x27 was not found in PyMC3." : String) =
          "\x27 was not found in " ++ "PyMC3" ++ "." := by decide
      rw [pmUnknownMsg, htail]
      simp [String.append_assoc]
  · intro st name nCols dname args st1 kw hd hexp
    have hlook := stanLookup_none hd
    have hmap : stanMapDist dname kw = .error (stanUnknownMsg dname) := by
      rw [stanMapDist, hlook]
    refine ⟨?_, ?_, ?_, ?_⟩
    · rw [stanAddParameters, hexp]
      dsimp only
      rw [hmap]
    · exact subStr_of_eq _ "There is no distribution named \x27"
        "\x27 in Stan." _ rfl
    · refine subStr_of_eq _
        ("There is no distribution named \x27" ++ dname ++ "\x27 in ") "." _ ?_
      have htail : ("\x27 in Stan." : String) = "\x27 in " ++ "Stan" ++ "." := by
        decide
      rw [stanUnknownMsg, htail]
      simp [String.append_assoc]
    · obtain ⟨newP, newM, hst, hP, hM⟩ :=
        stanExpandArgs_appends st name args st1 (.ok kw) hexp
      refine ⟨newP, newM, by rw [hst], by rw [hst], ?_, ?_⟩
      · intro d hdm
        obtain ⟨s, hs⟩ := hP d hdm
        rw [hs]
        exact strExt_ne name s
      · intro m hmm
        obtain ⟨s, hs⟩ := (hM m hmm).1
        rw [hs]
        exact strExt_ne name s

/-- Witness for C7 at the concrete unknown distribution Foo. -/
theorem unknown_distribution_build_error_witness :
    (pmBuildDist [] "b_x" (.mk "Foo" .nil) = ([], .error (pmUnknownMsg "Foo")) ∧
      SubStr "Foo" (pmUnknownMsg "Foo") ∧ SubStr "PyMC3" (pmUnknownMsg "Foo")) ∧
    (stanAddParameters stanReset "b_x" 1 (.mk "Foo" .nil) =
        (stanReset, .error (stanUnknownMsg "Foo")) ∧
      SubStr "Foo" (stanUnknownMsg "Foo") ∧ SubStr "Stan" (stanUnknownMsg "Foo") ∧
      ∃ newP newM, stanReset.parameters = stanReset.parameters ++ newP ∧
        stanReset.model = stanReset.model ++ newM ∧
        (∀ d ∈ newP, d.vname ≠ "b_x") ∧ (∀ m ∈ newM, m.lhs ≠ "b_x")) :=
  ⟨unknown_distribution_build_error.1 [] "b_x" "Foo" .nil (by decide),
   unknown_distribution_build_error.2 stanReset "b_x" 1 "Foo" .nil stanReset []
     (by decide) rfl⟩

/-- The mapping rejects a keyword mapping that omits mandatory arguments. -/
theorem stanMapDist_missing (dist : String) (sd : StanDistInfo)
    (kwargs : List (String × SVal)) (hl : stanDists.lookup dist = some sd)
    (hne : stanMissingArgs sd kwargs ≠ []) :
    stanMapDist dist kwargs =
      .error (stanMissingMsg dist (stanMissingArgs sd kwargs)) := by
  rw [stanMapDist, hl]
  have hf : (stanMissingArgs sd kwargs).isEmpty = false := by
    cases hc : stanMissingArgs sd kwargs
    · exact absurd hc hne
    · rfl
  simp [hf]

/-- C8: in the program-text back end, a prior omitting any placeholder-bound
mandatory argument of its distribution fails the mapping with an error that
names the distribution and each missing argument name; build invokes the
mapping for every prior before appending any declaration or statement for
it, so the prior's expansion (and with it the build) fails immediately with
that error. -/
theorem stan_missing_args_build_error :
    (∀ dist sd kwargs, stanDists.lookup dist = some sd →
      stanMissingArgs sd kwargs ≠ [] →
      stanMapDist dist kwargs =
        .error (stanMissingMsg dist (stanMissingArgs sd kwargs)) ∧
      SubStr dist (stanMissingMsg dist (stanMissingArgs sd kwargs)) ∧
      ∀ m ∈ stanMissingArgs sd kwargs,
        SubStr m (stanMissingMsg dist (stanMissingArgs sd kwargs))) ∧
    (∀ st name nCols dname args st1 kw sd,
      stanExpandArgs st name args = (st1, .ok kw) →
      stanDists.lookup dname = some sd →
      stanMissingArgs sd kw ≠ [] →
      stanAddParameters st name nCols (.mk dname args) =
        (st1, .error (stanMissingMsg dname (stanMissingArgs sd kw)))) := by
  refine ⟨fun dist sd kwargs hl hne => ⟨stanMapDist_missing dist sd kwargs hl hne,
    ?_, ?_⟩, ?_⟩
  · exact subStr_of_eq _ "The following mandatory parameters of the "
      (" distribution are missing: " ++ pySetStr (stanMissingArgs sd kwargs) ++ ".")
      _ (by rw [stanMissingMsg]; simp [String.append_assoc])
  · intro m hm
    have h1 : SubStr m ("\x27" ++ m ++ "\x27") := subStr_of_eq _ "\x27" "\x27" _ rfl
    have h2 : SubStr ("\x27" ++ m ++ "\x27")
        (joinComma ((stanMissingArgs sd kwargs).map (fun m => "\x27" ++ m ++ "\x27"))) :=
      subStr_joinComma (List.mem_map_of_mem _ hm)
    have h3 : SubStr
        (joinComma ((stanMissingArgs sd kwargs).map (fun m => "\x27" ++ m ++ "\x27")))
        (stanMissingMsg dist (stanMissingArgs sd kwargs)) := by
      refine subStr_of_eq _
        ("The following mandatory parameters of the " ++ dist ++
          " distribution are missing: " ++ "\x7b") ("\x7d" ++ ".") _ ?_
      rw [stanMissingMsg, pySetStr]
      simp only [String.append_assoc]
    exact subStr_trans h1 (subStr_trans h2 h3)
  · intro st name nCols dname args st1 kw sd hexp hl hne
    rw [stanAddParameters, hexp]
    dsimp only
    rw [stanMapDist_missing dname sd kw hl hne]

/-- Witness for C8: Normal with no arguments supplied misses mu and sd. -/
theorem stan_missing_args_build_error_witness :
    (stanMapDist "Normal" [] =
      .error (stanMissingMsg "Normal" (stanMissingArgs ⟨"normal", ["#mu", "#sd"], ""⟩ [])) ∧
    SubStr "Normal" (stanMissingMsg "Normal" (stanMissingArgs ⟨"normal", ["#mu", "#sd"], ""⟩ [])) ∧
    ∀ m ∈ stanMissingArgs ⟨"normal", ["#mu", "#sd"], ""⟩ ([] : List (String × SVal)),
      SubStr m (stanMissingMsg "Normal" (stanMissingArgs ⟨"normal", ["#mu", "#sd"], ""⟩ []))) ∧
    stanAddParameters stanReset "b_x" 1 (.mk "Normal" .nil) =
      (stanReset, .error (stanMissingMsg "Normal"
        (stanMissingArgs ⟨"normal", ["#mu", "#sd"], ""⟩ []))) :=
  ⟨stan_missing_args_build_error.1 "Normal" ⟨"normal", ["#mu", "#sd"], ""⟩ [] rfl
    (by decide),
   stan_missing_args_build_error.2 stanReset "b_x" 1 "Normal" .nil stanReset []
    ⟨"normal", ["#mu", "#sd"], ""⟩ rfl rfl (by decide)⟩

/-- C9: in the distribution mapping's argument substitution, an argument
whose supplied value is a single-element numeric array is coerced to a plain
numeric literal, the float of its sole element, before the statement text is
rendered: the resolved-and-coerced positional list holds the float at the
placeholder's position, its rendering is the numeric literal, and that
literal appears in the rendered call term. -/
theorem stan_single_element_array_coercion (dist k : String) (x : Rat)
    (sd : StanDistInfo) (kwargs : List (String × SVal)) (i : Nat)
    (_hl : stanDists.lookup dist = some sd)
    (hi : sd.sargs[i]? = some ("#" ++ k))
    (hk : kwargs.lookup k = some (.arr (.vec [x]))) :
    (stanDp sd kwargs)[i]? = some (.flt x) ∧
    ((stanDp sd kwargs).map svalStr)[i]? = some (pyFloatStr x) ∧
    SubStr (pyFloatStr x) (stanDistTermOf sd kwargs) := by
  have hdata : ("#" ++ k).data = '#' :: k.data := by
    simp [String.data_append]
  have hhash : isHashArg ("#" ++ k) = true := by
    rw [isHashArg, hdata]
    rfl
  have hdrop : ("#" ++ k).drop 1 = k := by
    apply String.ext
    rw [String.data_drop, hdata]
    rfl
  have hres : resolveArg kwargs ("#" ++ k) = .arr (.vec [x]) := by
    rw [resolveArg, hhash]
    simp [hdrop, hk]
  have hdp : (stanDp sd kwargs)[i]? = some (.flt x) := by
    rw [stanDp]
    simp only [List.getElem?_map, hi]
    show some (coerceNp (resolveArg kwargs ("#" ++ k))) = _
    rw [hres]
    rfl
  refine ⟨hdp, ?_, ?_⟩
  · simp only [List.getElem?_map, hdp]
    rfl
  · have hmem : pyFloatStr x ∈ (stanDp sd kwargs).map svalStr := by
      have hx : ((stanDp sd kwargs).map svalStr)[i]? = some (pyFloatStr x) := by
        simp only [List.getElem?_map, hdp]
        rfl
      exact List.getElem?_mem hx
    exact subStr_trans (subStr_joinComma hmem)
      (subStr_of_eq _ (sd.sname ++ "(") ");" _ (by rw [stanDistTermOf]))

/-- Witness for C9: mu supplied as the one-element array holding 2. -/
theorem stan_single_element_array_coercion_witness :
    (stanDp ⟨"normal", ["#mu", "#sd"], ""⟩ [("mu", .arr (.vec [2])), ("sd", .int 1)])[0]? =
      some (.flt 2) ∧
    ((stanDp ⟨"normal", ["#mu", "#sd"], ""⟩ [("mu", .arr (.vec [2])), ("sd", .int 1)]).map
      svalStr)[0]? = some (pyFloatStr 2) ∧
    SubStr (pyFloatStr 2)
      (stanDistTermOf ⟨"normal", ["#mu", "#sd"], ""⟩
        [("mu", .arr (.vec [2])), ("sd", .int 1)]) :=
  stan_single_element_array_coercion "Normal" "mu" 2 ⟨"normal", ["#mu", "#sd"], ""⟩
    [("mu", .arr (.vec [2])), ("sd", .int 1)] 0 rfl rfl rfl

/-- C10: calling the graph back end's run with a method that is neither mcmc
nor advi falls through the if/elif chain: no error, no sampling (the result
does not depend on the samplers), no result, state unchanged. -/
theorem pymc3_run_other_method_noop (sampleF : PSt → PTrace)
    (adviF : PSt → List (String × Rat)) (method : String) (st : PSt)
    (h1 : method ≠ "mcmc") (h2 : method ≠ "advi") :
    pymc3Run sampleF adviF method st = (st, .ok none) := by
  rw [pymc3Run]
  simp [h1, h2]

/-- Witness for C10 at the concrete method map. -/
theorem pymc3_run_other_method_noop_witness :
    pymc3Run (fun _ => ⟨[]⟩) (fun _ => []) "map" pmInit = (pmInit, .ok none) :=
  pymc3_run_other_method_noop _ _ "map" pmInit (by decide) (by decide)

/-! ## Claim theorems: transformed-variable bookkeeping (C4) -/

theorem memB_iff (x : String) (l : List String) : memB x l = true ↔ x ∈ l := by
  simp [memB, List.any_eq_true]

theorem memB_false_iff (x : String) (l : List String) :
    memB x l = false ↔ x ∉ l := by
  rw [← Bool.not_eq_true, not_iff_not, memB_iff]

/-- C4 counterexample: with transformed variable sd and latent variable a_sd
(which contains sd as a substring but does not extend it as a prefix), the
source's substring rule suppresses a_sd from neither set and reports it,
while the prefix-extension rule stated by the claim keeps a_sd in the
surviving untransformed set and reports only zzz. -/
theorem claim_transformed_prefix_rule_cex :
    pmGetTransformedVars [("sd", true), ("a_sd", false)] ["sd", "a_sd", "zzz"] =
      ["a_sd", "zzz"] ∧
    pmGetTransformedVarsPrefixSpec [("sd", true), ("a_sd", false)]
      ["sd", "a_sd", "zzz"] = ["zzz"] ∧
    (["a_sd", "zzz"] : List String) ≠ ["zzz"] :=
  ⟨rfl, rfl, by decide⟩

/-- C4 (amended): after run, a trace variable is reported as transformed
(suppressed) exactly when it is not a transformed RV name and, if it is a
latent (unobserved RV) name at all, some transformed RV name occurs in it as
a contiguous substring (not merely as a prefix); names absent from both the
transformed set and the surviving untransformed set are exactly the ones
reported. -/
theorem pm_transformed_vars_suppression (rvs : List (String × Bool))
    (varnames : List String) (x : String) :
    x ∈ pmGetTransformedVars rvs varnames ↔
      x ∈ varnames ∧
      x ∉ (rvs.filter (fun v => v.2)).map (fun v => v.1) ∧
      (x ∈ rvs.map (fun v => v.1) →
        ∃ t ∈ (rvs.filter (fun v => v.2)).map (fun v => v.1),
          listHasSub t.data x.data = true) := by
  rw [pmGetTransformedVars]
  simp only [List.mem_filter, Bool.not_eq_true', Bool.or_eq_false_iff,
    memB_false_iff, List.any_eq_false, strHasSub, Bool.not_eq_true]
  constructor
  · rintro ⟨hv, hT, hU⟩
    refine ⟨hv, hT, ?_⟩
    intro hN
    by_contra hno
    push_neg at hno
    exact hU ⟨⟨hN, hT⟩, fun t ht => Bool.eq_false_iff.mpr (hno t ht)⟩
  · rintro ⟨hv, hT, himp⟩
    refine ⟨hv, hT, ?_⟩
    rintro ⟨⟨hN, -⟩, hall⟩
    obtain ⟨t, ht, hsub⟩ := himp hN
    rw [hall t ht] at hsub
    exact Bool.false_ne_true hsub

/-! ## Claim theorems: prior expansion shape (C6) -/

/-- C6: for every acyclic prior tree (acyclicity is intrinsic to the
inductive Prior type, and the total expansion functions witness
termination), a successful prior expansion materializes exactly one
parameter per expansion call in both back ends (one plus one per nested
hyperprior, recursively), and the labels created are exactly the
expandedLabels recursion: every nested hyperprior under parent label,
underscore, argument key. -/
theorem prior_expansion_one_node_per_call :
    (∀ ns label p ns' r, pmBuildDist ns label p = (ns', .ok r) →
      ∃ new, ns' = ns ++ new ∧ new.map PNode.label = expandedLabels label p ∧
        new.length = numPriorCalls p) ∧
    (∀ st name nCols p st' r, stanAddParameters st name nCols p = (st', .ok r) →
      ∃ newP, st'.parameters = st.parameters ++ newP ∧
        newP.map ParamDecl.vname = expandedLabels name p ∧
        newP.length = numPriorCalls p) := by
  constructor
  · intro ns label p ns' r h
    obtain ⟨h1, -⟩ := pmBuildDist_ok ns label p ns' r h
    refine ⟨pmSpecNodes label p, h1, pmSpecNodes_labels label p,
      pmSpecNodes_length label p⟩
  · intro st name nCols p st' r h
    obtain ⟨h1, -⟩ := stanAddParameters_ok st name nCols p st' r h
    refine ⟨stanSpecParams name nCols p, by rw [h1],
      stanSpecParams_names name nCols p, ?_⟩
    rw [← expandedLabels_length name p, ← stanSpecParams_names name nCols p,
      List.length_map]

/-- Witness for C6 on a prior with one nested hyperprior. -/
theorem prior_expansion_one_node_per_call_witness :
    (∃ new,
      ([⟨"b_x_sd", "HalfCauchy", [("beta", .int 5)]⟩,
        ⟨"b_x", "Normal", [("mu", .int 0), ("sd", .ref "b_x_sd")]⟩] : List PNode) =
        [] ++ new ∧
      new.map PNode.label =
        expandedLabels "b_x" (.mk "Normal" (.cons "mu" (.int 0)
          (.cons "sd" (.pr (.mk "HalfCauchy" (.cons "beta" (.int 5) .nil))) .nil))) ∧
      new.length = numPriorCalls (.mk "Normal" (.cons "mu" (.int 0)
        (.cons "sd" (.pr (.mk "HalfCauchy" (.cons "beta" (.int 5) .nil))) .nil)))) ∧
    (∃ newP,
      ([⟨"real", "<lower=0>", "b_x_sd"⟩, ⟨"real", "", "b_x"⟩] : List ParamDecl) =
        stanReset.parameters ++ newP ∧
      newP.map ParamDecl.vname =
        expandedLabels "b_x" (.mk "Normal" (.cons "mu" (.int 0)
          (.cons "sd" (.pr (.mk "HalfCauchy" (.cons "beta" (.int 5) .nil))) .nil))) ∧
      newP.length = numPriorCalls (.mk "Normal" (.cons "mu" (.int 0)
        (.cons "sd" (.pr (.mk "HalfCauchy" (.cons "beta" (.int 5) .nil))) .nil)))) :=
  ⟨prior_expansion_one_node_per_call.1 [] "b_x"
      (.mk "Normal" (.cons "mu" (.int 0)
        (.cons "sd" (.pr (.mk "HalfCauchy" (.cons "beta" (.int 5) .nil))) .nil)))
      _ _ rfl,
   prior_expansion_one_node_per_call.2 stanReset "b_x" 1
      (.mk "Normal" (.cons "mu" (.int 0)
        (.cons "sd" (.pr (.mk "HalfCauchy" (.cons "beta" (.int 5) .nil))) .nil)))
      { stanReset with
        parameters := [⟨"real", "<lower=0>", "b_x_sd"⟩, ⟨"real", "", "b_x"⟩],
        model := [⟨"b_x_sd", "cauchy(0, 5);"⟩, ⟨"b_x", "normal(0, b_x_sd);"⟩] }
      "b_x" rfl⟩

/-! ## Claim theorems: the fixed-effects accumulator (C5) -/

/-- Data matrix of a fixed-effect term. -/
def termMat (t : Term) : Mat :=
  match t.data with
  | .plain m => m
  | .grouped _ => []

/-- One fixed-effect step of the linear predictor: accumulator plus the
column-broadcast product of the term's data and its coefficient RV. -/
def fixedStep (acc : GExpr) (t : Term) : GExpr :=
  .add acc (.col (.dot (termMat t) ("b_" ++ t.name)))

theorem pmBuildTerms_fixed (ts : List Term) :
    ∀ ns mu ns' mu',
    (∀ t ∈ ts, t.random = false ∧ ∃ m, t.data = .plain m) →
    pmBuildTerms ns mu ts = (ns', mu', .ok ()) →
    mu' = ts.foldl fixedStep mu ∧
    ∃ new, ns' = ns ++ new ∧
      ∀ t ∈ ts, ∃ nd ∈ new, nd.label = "b_" ++ t.name ∧
        nd.dist = t.prior.name ∧
        nd.args.lookup "shape" = some (.int ((matCols (termMat t) : Int))) := by
  induction ts with
  | nil =>
    intro ns mu ns' mu' hf h
    rw [pmBuildTerms] at h
    simp only [Prod.mk.injEq] at h
    exact ⟨h.2.1.symm, [], by simp [← h.1], by simp⟩
  | cons t rest ih =>
    intro ns mu ns' mu' hf h
    obtain ⟨hrand, m, hdata⟩ := hf t (List.mem_cons_self t rest)
    rw [pmBuildTerms, hdata] at h
    dsimp only at h
    simp only [hrand, Bool.false_eq_true, if_false] at h
    rcases hb : pmBuildDist ns ("b_" ++ t.name) (priorWithShape (matCols m) t.prior)
      with ⟨ns1, resb⟩
    rw [hb] at h
    cases resb with
    | error e => simp at h
    | ok mv =>
      dsimp only at h
      obtain ⟨hmu, new2, hns, hmem⟩ :=
        ih ns1 (.add mu (.col (.dot m ("b_" ++ t.name)))) ns' mu'
          (fun u hu => hf u (List.mem_cons_of_mem _ hu)) h
      obtain ⟨hns1, -⟩ :=
        pmBuildDist_ok ns ("b_" ++ t.name) (priorWithShape (matCols m) t.prior)
          ns1 mv hb
      refine ⟨?_, pmSpecNodes ("b_" ++ t.name) (priorWithShape (matCols m) t.prior)
        ++ new2, ?_, ?_⟩
      · rw [hmu, List.foldl_cons]
        congr 1
        rw [fixedStep, termMat, hdata]
      · rw [hns, hns1, List.append_assoc]
      · intro u hu
        rcases List.mem_cons.1 hu with hu | hu
        · subst hu
          rcases hp : u.prior with ⟨nm, as⟩
          refine ⟨⟨"b_" ++ u.name, nm,
            ("shape", .int ((matCols m : Int))) :: pmSpecArgs ("b_" ++ u.name) as⟩,
            ?_, rfl, rfl, by simp [List.lookup, termMat, hdata]⟩
          apply List.mem_append_left
          rw [priorWithShape, pmSpecNodes]
          refine List.mem_append_right _ ?_
          simp [pmSpecArgs, pmSpecVal]
        · obtain ⟨nd, hnd, hrest⟩ := hmem u hu
          exact ⟨nd, List.mem_append_right _ hnd, hrest⟩

/-- C5: for a specification whose terms are all fixed effects, after a
successful graph-back-end build the linear-predictor accumulator is exactly
the left fold, over the terms in stored order starting from the float zero,
of adding the column-broadcast product of the term's data with its
coefficient RV, where for each term one RV node named b underscore term was
freshly created with the term's distribution and a shape equal to its column
count. -/
theorem pymc3_fixed_effects_accumulator (st0 : PSt) (spec : ModelSpec)
    (st' : PSt) (spec' : ModelSpec)
    (hfixed : ∀ t ∈ spec.terms, t.random = false ∧ ∃ m, t.data = .plain m)
    (h : pymc3Build st0 spec true = (st', spec', .ok ())) :
    st'.mu = some (spec.terms.foldl fixedStep (.const 0)) ∧
    ∀ t ∈ spec.terms, ∃ nd ∈ st'.nodes, nd.label = "b_" ++ t.name ∧
      nd.dist = t.prior.name ∧
      nd.args.lookup "shape" = some (.int ((matCols (termMat t) : Int))) := by
  rw [pymc3Build] at h
  simp only [reduceIte] at h
  rcases hb : pmBuildTerms (pmReset st0).nodes (.const 0) spec.terms
    with ⟨ns, mu, res⟩
  rw [hb] at h
  cases res with
  | error e => simp at h
  | ok u =>
    dsimp only at h
    rcases hl : pmLinkApply spec.family.link mu with e | lmu
    · rw [hl] at h
      simp at h
    · rw [hl] at h
      dsimp only at h
      obtain ⟨hmu, new, hns, hmem⟩ :=
        pmBuildTerms_fixed spec.terms (pmReset st0).nodes (.const 0) ns mu hfixed hb
      rcases hy : pmBuildDist ns spec.y.name
          (.mk spec.family.prior.name
            ((spec.family.prior.pargs.setK spec.family.parent
              (.gexpr lmu)).setK "observed" (.arr (.mat spec.y.data))))
        with ⟨ns2, resy⟩
      rw [hy] at h
      cases resy with
      | error e => simp at h
      | ok v =>
        dsimp only at h
        simp only [Prod.mk.injEq] at h
        obtain ⟨hyns, -⟩ := pmBuildDist_ok _ _ _ _ _ hy
        refine ⟨?_, ?_⟩
        · rw [← h.1, hmu]
        · intro t ht
          obtain ⟨nd, hnd, hrest⟩ := hmem t ht
          refine ⟨nd, ?_, hrest⟩
          rw [← h.1]
          dsimp only
          rw [hyns, hns]
          exact List.mem_append_left _ (List.mem_append_right _ hnd)

/-- The concrete all-fixed specification exercising C5: two fixed terms. -/
def exC5Spec : ModelSpec :=
  ⟨[⟨"x1", .plain [[1], [2]], false,
     .mk "Normal" (.cons "mu" (.int 0) (.cons "sd" (.int 1) .nil))⟩,
    ⟨"x2", .plain [[3, 4], [5, 6]], false,
     .mk "Cauchy" (.cons "alpha" (.int 0) (.cons "beta" (.int 2) .nil))⟩],
   ⟨"y", [[0], [0]]⟩,
   ⟨.mk "Normal" (.cons "sd" (.int 1) .nil), .named "identity", "mu"⟩⟩

/-- Witness for C5 on the two-term all-fixed specification. -/
theorem pymc3_fixed_effects_accumulator_witness :
    (pymc3Build pmInit exC5Spec true).1.mu =
      some (exC5Spec.terms.foldl fixedStep (.const 0)) ∧
    ∀ t ∈ exC5Spec.terms, ∃ nd ∈ (pymc3Build pmInit exC5Spec true).1.nodes,
      nd.label = "b_" ++ t.name ∧ nd.dist = t.prior.name ∧
      nd.args.lookup "shape" = some (.int ((matCols (termMat t) : Int))) :=
  pymc3_fixed_effects_accumulator pmInit exC5Spec
    (pymc3Build pmInit exC5Spec true).1 (pymc3Build pmInit exC5Spec true).2.1
    (by intro t ht; fin_cases ht
        · exact ⟨rfl, [[1], [2]], rfl⟩
        · exact ⟨rfl, [[3, 4], [5, 6]], rfl⟩)
    (by rfl)

/-! ## Claim theorems: spec mutation by build (C1) -/

/-- A concrete one-fixed-effect specification whose family prior argument
mapping holds a single sd entry before the build. -/
def cexC1Spec : ModelSpec :=
  ⟨[⟨"x", .plain [[1], [2], [3]], false,
     .mk "Normal" (.cons "mu" (.int 0) (.cons "sd" (.int 1) .nil))⟩],
   ⟨"y", [[0], [0], [0]]⟩,
   ⟨.mk "Normal" (.cons "sd" (.int 1) .nil), .named "identity", "mu"⟩⟩

/-- C1 counterexample: the graph back end's build succeeds on this
specification and afterwards the family prior's argument mapping no longer
holds the same entries: the build has written the link-transformed
accumulator under the parent key mu and the response data under observed
into the caller's Family.prior.args. -/
theorem claim_spec_not_mutated_cex :
    (pymc3Build pmInit cexC1Spec true).2.2 = .ok () ∧
    (pymc3Build pmInit cexC1Spec true).2.1.family.prior.pargs ≠
      cexC1Spec.family.prior.pargs :=
  ⟨rfl, by decide⟩

/-- C1 (amended): a successful graph-back-end build leaves the terms, the
response, the link, the parent name, and the family prior's distribution
name unchanged, but mutates the family prior's argument mapping in exactly
two entries: the parent-named key is set to a graph expression (the
link-transformed accumulator) and the observed key is set to the response
data; the program-text back end reads the specification without writing to
it. -/
theorem pymc3_build_mutates_family_prior (st0 : PSt) (spec : ModelSpec)
    (st' : PSt) (spec' : ModelSpec) (reset : Bool)
    (h : pymc3Build st0 spec reset = (st', spec', .ok ())) :
    spec'.terms = spec.terms ∧ spec'.y = spec.y ∧
    spec'.family.link = spec.family.link ∧
    spec'.family.parent = spec.family.parent ∧
    spec'.family.prior.name = spec.family.prior.name ∧
    ∃ g, spec'.family.prior.pargs =
      (spec.family.prior.pargs.setK spec.family.parent (.gexpr g)).setK
        "observed" (.arr (.mat spec.y.data)) := by
  rw [pymc3Build] at h
  rcases hb : pmBuildTerms (if reset = true then pmReset st0 else st0).nodes
      (.const 0) spec.terms with ⟨ns, mu, res⟩
  rw [hb] at h
  cases res with
  | error e => simp at h
  | ok u =>
    dsimp only at h
    rcases hl : pmLinkApply spec.family.link mu with e | lmu
    · rw [hl] at h
      simp at h
    · rw [hl] at h
      dsimp only at h
      rcases hy : pmBuildDist ns spec.y.name
          (.mk spec.family.prior.name
            ((spec.family.prior.pargs.setK spec.family.parent
              (.gexpr lmu)).setK "observed" (.arr (.mat spec.y.data))))
        with ⟨ns2, resy⟩
      rw [hy] at h
      cases resy with
      | error e => simp at h
      | ok v =>
        dsimp only at h
        simp only [Prod.mk.injEq] at h
        refine ⟨?_, ?_, ?_, ?_, ?_, lmu, ?_⟩ <;> rw [← h.2.1] <;> rfl

/-- Witness for C1 on the concrete specification. -/
theorem pymc3_build_mutates_family_prior_witness :
    (pymc3Build pmInit cexC1Spec true).2.1.terms = cexC1Spec.terms ∧
    (pymc3Build pmInit cexC1Spec true).2.1.y = cexC1Spec.y ∧
    (pymc3Build pmInit cexC1Spec true).2.1.family.link = cexC1Spec.family.link ∧
    (pymc3Build pmInit cexC1Spec true).2.1.family.parent =
      cexC1Spec.family.parent ∧
    (pymc3Build pmInit cexC1Spec true).2.1.family.prior.name =
      cexC1Spec.family.prior.name ∧
    ∃ g, (pymc3Build pmInit cexC1Spec true).2.1.family.prior.pargs =
      (cexC1Spec.family.prior.pargs.setK cexC1Spec.family.parent
        (.gexpr g)).setK "observed" (.arr (.mat cexC1Spec.y.data)) :=
  pymc3_build_mutates_family_prior pmInit cexC1Spec
    (pymc3Build pmInit cexC1Spec true).1 (pymc3Build pmInit cexC1Spec true).2.1
    true rfl

/-! ## Claim theorems: trace reconstruction (C2) -/

/-- C2: the program-text back end's trace conversion produces exactly
nChains sub-traces, and for every variable whose flat draw array has total
length nChains times samples, sub-trace i holds exactly the draws at indices
i times samples up to (i plus one) times samples, in original order. -/
theorem stan_trace_reconstruction (c n i : Nat) (res : List (String × List Rat))
    (hi : i < c) :
    (convertToMultitrace c n res).length = c ∧
    ∃ st, (convertToMultitrace c n res)[i]? = some st ∧ st.chainIdx = i ∧
      ∀ k par, (k, par) ∈ res → par.length = c * n →
        ∃ s, (k, s) ∈ st.samples ∧ s.length = n ∧
          ∀ j, j < n → s[j]? = par[i * n + j]? := by
  refine ⟨by simp [convertToMultitrace], ?_⟩
  refine ⟨⟨i, res.map (fun p => p.1),
    res.map (fun p => (p.1, (p.2.drop (i * n)).take n))⟩, ?_, rfl, ?_⟩
  · simp [convertToMultitrace, List.getElem?_map, List.getElem?_range, hi]
  · intro k par hmem hlen
    refine ⟨(par.drop (i * n)).take n, ?_, ?_, ?_⟩
    · exact List.mem_map_of_mem _ hmem
    · rw [List.length_take, List.length_drop, hlen]
      have hmul : (i + 1) * n ≤ c * n := Nat.mul_le_mul_right n hi
      rw [Nat.succ_mul] at hmul
      omega
    · intro j hj
      rw [List.getElem?_take, if_pos hj, List.getElem?_drop]

/-! ## Claim theorems: the sampling statement text (C3) -/

/-- A concrete one-fixed-effect specification for exercising the
program-text back end: term x with a three-row one-column design matrix and
a Normal(0, 1) prior. -/
def cexC3Spec : ModelSpec :=
  ⟨[⟨"x", .plain [[1], [2], [3]], false,
     .mk "Normal" (.cons "mu" (.int 0) (.cons "sd" (.int 1) .nil))⟩],
   ⟨"y", [[0], [0], [0]]⟩,
   ⟨.mk "Normal" (.cons "sd" (.int 1) .nil), .named "identity", "mu"⟩⟩

/-- C3 counterexample: the statement the build appends to the model block
for term x is b_x tilde normal(0, 1) followed by TWO semicolons (the mapped
call term carries one and the model-block format adds another), not the
single-semicolon text the claim states. -/
theorem claim_single_semicolon_cex :
    (stanBuild stanReset cexC3Spec true).2 = .ok () ∧
    ((stanBuild stanReset cexC3Spec true).1.model.map ModelStmt.render) =
      ["b_x ~ normal(0, 1);;", "y ~ normal(yhat, sigma);"] ∧
    ("b_x ~ normal(0, 1);;" : String) ≠ "b_x ~ normal(0, 1);" :=
  ⟨rfl, rfl, by decide⟩

/-- C3 (amended): every sampling statement the program-text back end appends
for a term or nested hyperprior renders as name, tilde, mapped distribution,
parenthesized comma-separated mapped arguments, and TWO trailing semicolons:
the mapped call term itself ends in a semicolon and the model-block append
adds another. -/
theorem stan_sampling_statement_two_semicolons (st : SSt) (name : String)
    (nCols : Nat) (p : Prior) (st' : SSt) (res : Except String String)
    (h : stanAddParameters st name nCols p = (st', res))
    (m : ModelStmt) (hm : m ∈ st'.model) (hnew : m ∉ st.model) :
    ∃ lhs dn a2, ModelStmt.render m = lhs ++ " ~ " ++ dn ++ "(" ++ a2 ++ ");;" := by
  obtain ⟨newP, newM, hst, hP, hM⟩ :=
    stanAddParameters_appends st name nCols p st' res h
  have hmem : m ∈ newM := by
    rw [hst] at hm
    dsimp only at hm
    rcases List.mem_append.1 hm with hh | hh
    · exact absurd hh hnew
    · exact hh
  obtain ⟨-, dn, a2, hrhs⟩ := hM m hmem
  refine ⟨m.lhs, dn, a2, ?_⟩
  rw [ModelStmt.render, hrhs]
  have hx : (");" : String) ++ ";" = ");;" := rfl
  rw [← hx]
  simp only [String.append_assoc]

/-- Witness for C3 on the concrete Normal(0, 1) prior under name b_x. -/
theorem stan_sampling_statement_two_semicolons_witness :
    ∃ lhs dn a2, ModelStmt.render ⟨"b_x", "normal(0, 1);"⟩ =
      lhs ++ " ~ " ++ dn ++ "(" ++ a2 ++ ");;" :=
  stan_sampling_statement_two_semicolons stanReset "b_x" 1
    (.mk "Normal" (.cons "mu" (.int 0) (.cons "sd" (.int 1) .nil)))
    { stanReset with parameters := [⟨"real", "", "b_x"⟩],
                     model := [⟨"b_x", "normal(0, 1);"⟩] }
    (.ok "b_x") rfl ⟨"b_x", "normal(0, 1);"⟩ (by decide) (by decide)

/-- Witness for C2: two chains of two samples each, one variable. -/
theorem stan_trace_reconstruction_witness :
    (convertToMultitrace 2 2 [("a", [10, 20, 30, 40])]).length = 2 ∧
    ∃ st, (convertToMultitrace 2 2 [("a", [10, 20, 30, 40])])[1]? = some st ∧
      st.chainIdx = 1 ∧
      ∀ k par, (k, par) ∈ [("a", ([10, 20, 30, 40] : List Rat))] →
        par.length = 2 * 2 →
        ∃ s, (k, s) ∈ st.samples ∧ s.length = 2 ∧
          ∀ j, j < 2 → s[j]? = par[1 * 2 + j]? :=
  stan_trace_reconstruction 2 2 1 [("a", [10, 20, 30, 40])] (by decide)

end Bambi
